import Mathlib

/-!
Verification of the expense-tracker ledger engine: a shallow embedding of the
debt-netting trigger `fn_calculate_shared_expense_debts` (SQL migration
`20260224000000_fix_triggers_and_realtime.sql`), the friend-balance aggregator
and monthly carry-forward of `transactionService`, the percentages validation
of `AddTransaction.handleSubmit`, and the retry state machine of
`SubscriptionService.handleRetry`.  Monetary `numeric` values are embedded as
`Rat`; uuids are embedded as opaque `Nat` keys; emails as `String`.
-/

namespace ExpenseTracker

/-- Transaction type (TS `TransactionType`): `revenue`, `personal` or `shared`. -/
inductive TxType where
  | revenue
  | personal
  | shared
deriving DecidableEq, Repr

/-- One payer entry of a transaction (TS `Payer`). -/
structure Payer where
  user_id : Nat
  amount_paid : Rat
deriving DecidableEq, Repr

/-- One split participant (TS `SplitParticipant`). -/
structure SplitParticipant where
  user_id : Nat
  share_amount : Rat
  share_percentage : Option Rat := none
deriving DecidableEq, Repr

/-- The split details object (TS `SplitDetails`); `method` is one of
`"equally"`, `"percentages"`, `"settlement"`. -/
structure SplitDetails where
  method : String
  participants : List SplitParticipant
deriving DecidableEq, Repr

/-- One append-only activity log entry (TS `ActivityLogEntry`). -/
structure ActivityLogEntry where
  action : String
  user_id : Nat
  user_name : String
  timestamp : String
deriving DecidableEq, Repr

/-- A transaction row (TS `Transaction` / table `public.transactions`). -/
structure Transaction where
  id : Nat
  user_id : Nat
  type : TxType
  amount : Rat
  payment_mode : String := "online"
  description : String := ""
  date : String := ""
  category : Option String := none
  created_at : String := ""
  updated_at : String := ""
  deleted_at : Option String := none
  payers : Option (List Payer) := none
  split_details : Option SplitDetails := none
  activity_log : List ActivityLogEntry := []
deriving DecidableEq, Repr

/-- A derived debt edge (table `public.debts`). -/
structure Debt where
  transaction_id : Nat
  debtor_id : Nat
  creditor_id : Nat
  amount : Rat
deriving DecidableEq, Repr

/-- SQL `LEAST` on two numeric values. -/
def least (a b : Rat) : Rat := if a ≤ b then a else b

/-- Absolute value (SQL `ABS`, JS `Math.abs`). -/
def ratAbs (x : Rat) : Rat := if x < 0 then -x else x

/-- Test whether the character list `s` starts with `p`. -/
def charsStartWith : List Char → List Char → Bool
  | _, [] => true
  | [], _ :: _ => false
  | a :: s, b :: p => a == b && charsStartWith s p

/-- Suffix of `s` after the leftmost occurrence of `pat` (`none` when `pat`
does not occur in `s`). -/
def findTail (pat : List Char) : List Char → Option (List Char)
  | [] => if charsStartWith [] pat then some [] else none
  | a :: s =>
    if charsStartWith (a :: s) pat then some ((a :: s).drop pat.length)
    else findTail pat s

/-- SQL `TRIM`: strip space characters from both ends. -/
def trimChars (l : List Char) : List Char :=
  ((l.dropWhile (fun c => c == ' ')).reverse.dropWhile (fun c => c == ' ')).reverse

/-- JS string comparison (`<` on strings, lexicographic by code unit),
on the underlying character lists. -/
def lexLtChars : List Char → List Char → Bool
  | [], [] => false
  | [], _ :: _ => true
  | _ :: _, [] => false
  | a :: s, b :: t => if a < b then true else if b < a then false else lexLtChars s t

/-- Round half away from zero to an integer: PostgreSQL `ROUND` behaviour on
`numeric` values. -/
def roundHalfAway (x : Rat) : Int :=
  if 0 ≤ x then ⌊x + 1/2⌋ else ⌈x - 1/2⌉

/-- Round to two decimal places: the SQL `ROUND(v, 2)`. -/
def round2 (x : Rat) : Rat := (roundHalfAway (x * 100) : Rat) / 100

/-- Accumulating upsert into the `_temp_balances` temp table
(`INSERT ... ON CONFLICT (user_id) DO UPDATE SET net_balance =
_temp_balances.net_balance + EXCLUDED.net_balance`), modelled as an
association list kept in insertion order. -/
def upsertBalance : List (Nat × Rat) → Nat → Rat → List (Nat × Rat)
  | [], uid, amt => [(uid, amt)]
  | e :: es, uid, amt =>
    if e.1 = uid then (e.1, e.2 + amt) :: es else e :: upsertBalance es uid amt

/-- The creditor decrement `UPDATE _temp_balances SET net_balance =
net_balance - amt WHERE user_id = uid`. -/
def subBalance : List (Nat × Rat) → Nat → Rat → List (Nat × Rat)
  | [], _, _ => []
  | e :: es, uid, amt =>
    if e.1 = uid then (e.1, e.2 - amt) :: subBalance es uid amt
    else e :: subBalance es uid amt

/-- Net balance accumulation of `fn_calculate_shared_expense_debts`:
each payer adds `amount_paid`, each participant subtracts `share_amount`. -/
def netTable (ps : List Payer) (parts : List SplitParticipant) : List (Nat × Rat) :=
  parts.foldl (fun tbl q => upsertBalance tbl q.user_id (-q.share_amount))
    (ps.foldl (fun tbl p => upsertBalance tbl p.user_id p.amount_paid) [])

/-- Insertion into a list sorted by balance descending; equal balances keep
their existing (table) order — a fixed deterministic rendering of the tie
order left unspecified by `ORDER BY net_balance DESC`. -/
def insertByBalDesc (x : Nat × Rat) : List (Nat × Rat) → List (Nat × Rat)
  | [] => [x]
  | y :: ys => if y.2 ≤ x.2 then x :: y :: ys else y :: insertByBalDesc x ys

/-- Insertion sort by balance descending (stable). -/
def sortByBalDesc : List (Nat × Rat) → List (Nat × Rat)
  | [] => []
  | x :: xs => insertByBalDesc x (sortByBalDesc xs)

/-- The creditor cursor `SELECT user_id, net_balance FROM _temp_balances
WHERE net_balance > 0.01 ORDER BY net_balance DESC`, re-opened for each
debtor on the current table state. -/
def selectCreditors (tbl : List (Nat × Rat)) : List (Nat × Rat) :=
  sortByBalDesc (tbl.filter (fun e => decide ((1 : Rat)/100 < e.2)))

/-- The debtor cursor `SELECT user_id, ABS(net_balance) FROM _temp_balances
WHERE net_balance < -0.01`.  The statement has no `ORDER BY`, so the rows
come back in table (insertion) order. -/
def debtorsOf (tbl : List (Nat × Rat)) : List (Nat × Rat) :=
  (tbl.filter (fun e => decide (e.2 < -((1 : Rat)/100)))).map (fun e => (e.1, ratAbs e.2))

/-- Inner creditor loop for one debtor: `v_debt_amount := LEAST(...)`; insert
an edge of `ROUND(v_debt_amount, 2)` when the amount exceeds `0.01`, decrement
the local debtor remainder and the creditor's table balance, and exit once
the debtor remainder drops to `0.01` or below.  The creditor list is the
cursor snapshot; the table evolves through the updates. -/
def matchDebtor (txId did : Nat) : Rat → List (Nat × Rat) → List (Nat × Rat) →
    List Debt × List (Nat × Rat)
  | _, [], tbl => ([], tbl)
  | drem, c :: rest, tbl =>
    let amt := least drem c.2
    if (1 : Rat)/100 < amt then
      let tbl2 := subBalance tbl c.1 amt
      if drem - amt ≤ (1 : Rat)/100 then
        ([⟨txId, did, c.1, round2 amt⟩], tbl2)
      else
        let r := matchDebtor txId did (drem - amt) rest tbl2
        (⟨txId, did, c.1, round2 amt⟩ :: r.1, r.2)
    else
      if drem ≤ (1 : Rat)/100 then ([], tbl)
      else matchDebtor txId did drem rest tbl

/-- Outer debtor loop; the parameter `sel` renders the creditor cursor that is
re-opened on the current table state for each debtor. -/
def processDebtors (sel : List (Nat × Rat) → List (Nat × Rat)) (txId : Nat) :
    List (Nat × Rat) → List (Nat × Rat) → List Debt
  | [], _ => []
  | d :: rest, tbl =>
    let r := matchDebtor txId d.1 d.2 (sel tbl) tbl
    r.1 ++ processDebtors sel txId rest r.2

/-- General shared-expense netting of `fn_calculate_shared_expense_debts`
(steps: accumulate nets, scan debtors, greedily pair with creditors). -/
def sharedDebts (txId : Nat) (ps : List Payer) (parts : List SplitParticipant) :
    List Debt :=
  let tbl := netTable ps parts
  processDebtors selectCreditors txId (debtorsOf tbl) tbl

/-- Environment for the trigger: the `user_profiles` table as `(id, email)`
pairs, consulted by the old-format settlement email fallback. -/
structure Env where
  profiles : List (Nat × String)
deriving Repr

/-- Capture of the POSIX regex `pat(.+)$` used by `SUBSTRING`: everything
after the leftmost occurrence of `pat`, `none` when `pat` does not occur.
An empty remainder stands for the regex failing to match (it needs at least
one character); the caller's empty-string guard rejects that case too. -/
def extractTail (pat s : String) : Option (List Char) :=
  findTail pat.data s.data

/-- Old-format settlement fallback: parse the counterparty email out of the
description (`SETTLEMENT: Paid (.+)$` for `personal`, `SETTLEMENT: Received
from (.+)$` otherwise), trim it, and look it up in `user_profiles`
(`SELECT id ... WHERE email = v_friend_email LIMIT 1`). -/
def emailCounterparty (env : Env) (tx : Transaction) : Option Nat :=
  let cap := if tx.type = TxType.personal then
      extractTail "SETTLEMENT: Paid " tx.description
    else
      extractTail "SETTLEMENT: Received from " tx.description
  match cap with
  | none => none
  | some c =>
    let e := trimChars c
    if e = [] then none
    else (env.profiles.find? (fun pr => pr.2.data == e)).map (fun pr => pr.1)

/-- Settlement counterparty resolution: new format (`split_details` present
with `method = 'settlement'` and a nonempty participants array: take the
first participant), else the email fallback. -/
def resolveCounterparty (env : Env) (tx : Transaction) : Option Nat :=
  match tx.split_details with
  | some sd =>
    match sd.participants with
    | q :: _ =>
      if sd.method = "settlement" then some q.user_id else emailCounterparty env tx
    | [] => emailCounterparty env tx
  | none => emailCounterparty env tx

/-- Edges inserted by one firing of `fn_calculate_shared_expense_debts` for
row `NEW` (every branch first deletes the transaction's existing edges):
soft-deleted rows insert nothing; `SETTLEMENT:` descriptions insert one
offsetting edge when the counterparty resolves (`personal`: friend owes
creator, otherwise creator owes friend); non-shared rows or missing
`split_details`/`payers` insert nothing; shared rows run the netting. -/
def recomputeEdges (env : Env) (tx : Transaction) : List Debt :=
  if tx.deleted_at.isSome then []
  else if charsStartWith tx.description.data "SETTLEMENT:".data then
    match resolveCounterparty env tx with
    | some fid =>
      if tx.type = TxType.personal then [⟨tx.id, fid, tx.user_id, tx.amount⟩]
      else [⟨tx.id, tx.user_id, fid, tx.amount⟩]
    | none => []
  else
    match tx.type, tx.split_details, tx.payers with
    | TxType.shared, some sd, some ps => sharedDebts tx.id ps sd.participants
    | _, _, _ => []

/-- Replace semantics of the trigger on the debts store: delete every edge
with the transaction's id, then insert the recomputed edges. -/
def applyTrigger (env : Env) (store : List Debt) (tx : Transaction) : List Debt :=
  store.filter (fun d => d.transaction_id != tx.id) ++ recomputeEdges env tx

/-- Soft delete of `transactionService.deleteTransaction`: set `deleted_at`,
append a `deleted` entry to the activity log, bump `updated_at`. -/
def deleteTransaction (tx : Transaction) (entry : ActivityLogEntry) (now : String) :
    Transaction :=
  { tx with deleted_at := some now, activity_log := tx.activity_log ++ [entry],
            updated_at := now }

/-- Debts touching a user: the `.or(debtor_id.eq.u, creditor_id.eq.u)` fetch
of `transactionService.getFriendBalances`. -/
def debtsTouching (uid : Nat) (debts : List Debt) : List Debt :=
  debts.filter (fun d => d.debtor_id == uid || d.creditor_id == uid)

/-- Friend balance fold of `transactionService.getFriendBalances`: when the
user is the debtor the edge amount is subtracted under the creditor's key,
otherwise added under the debtor's key.  JS `Map` iteration keeps insertion
order, rendered as the same association list as the balance table. -/
def friendBalances (uid : Nat) (debts : List Debt) : List (Nat × Rat) :=
  (debtsTouching uid debts).foldl
    (fun m d =>
      if d.debtor_id = uid then upsertBalance m d.creditor_id (-d.amount)
      else upsertBalance m d.debtor_id d.amount)
    []

/-- Map lookup with the `|| 0` default of the source. -/
def lookupBal : List (Nat × Rat) → Nat → Rat
  | [], _ => 0
  | e :: es, k => if e.1 = k then e.2 else lookupBal es k

/-- Month bucket key: `tx.date.substring(0, 7)`. -/
def monthKey (tx : Transaction) : List Char := tx.date.data.take 7

/-- Revenue contribution of one transaction to its month bucket. -/
def revenueContribution (tx : Transaction) : Rat :=
  if tx.type = TxType.revenue then tx.amount else 0

/-- Spent contribution of one transaction to its month bucket: `personal`
amounts plus, on `shared` transactions, the user's own `amount_paid`. -/
def spentContribution (uid : Nat) (tx : Transaction) : Rat :=
  (if tx.type = TxType.personal then tx.amount else 0) +
  (match tx.type, tx.payers with
   | TxType.shared, some ps =>
     match ps.find? (fun p => p.user_id == uid) with
     | some p => p.amount_paid
     | none => 0
   | _, _ => 0)

/-- Month bucket upsert (get-or-init `{revenue: 0, spent: 0}` then add). -/
def bumpMonth : List (List Char × Rat × Rat) → List Char → Rat → Rat → List (List Char × Rat × Rat)
  | [], m, rev, sp => [(m, rev, sp)]
  | e :: es, m, rev, sp =>
    if e.1 = m then (e.1, e.2.1 + rev, e.2.2 + sp) :: es
    else e :: bumpMonth es m rev sp

/-- The `monthlyData` map of `calculateAndStoreMonthlyBalances`, built over
the non-deleted transactions in list order. -/
def monthlyDataOf (uid : Nat) (txs : List Transaction) : List (List Char × Rat × Rat) :=
  (txs.filter (fun t => t.deleted_at.isNone)).foldl
    (fun m t => bumpMonth m (monthKey t) (revenueContribution t) (spentContribution uid t)) []

/-- Insertion into an ascending list of month keys. -/
def insertStrAsc (x : List Char) : List (List Char) → List (List Char)
  | [] => [x]
  | y :: ys => if lexLtChars x y then x :: y :: ys else y :: insertStrAsc x ys

/-- Ascending lexicographic sort of month keys (`Array.from(keys()).sort()`). -/
def sortStrAsc : List (List Char) → List (List Char)
  | [] => []
  | x :: xs => insertStrAsc x (sortStrAsc xs)

/-- Month bucket lookup; months outside the map read as `(0, 0)`. -/
def lookupMonth : List (List Char × Rat × Rat) → List Char → Rat × Rat
  | [], _ => (0, 0)
  | e :: es, k => if e.1 = k then e.2 else lookupMonth es k

/-- One persisted `(user, month)` balance row. -/
structure MonthRow where
  month : List Char
  opening : Rat
  closing : Rat
deriving DecidableEq, Repr

/-- Loop over the sorted months threading `previousClosingBalance`:
`opening = previous closing`, `closing = opening + revenue - spent`.
Returns the upserted rows in order and the final previous closing balance. -/
def buildRows (f : List Char → Rat × Rat) : List (List Char) → Rat → List MonthRow × Rat
  | [], prev => ([], prev)
  | m :: ms, prev =>
    let cl := prev + (f m).1 - (f m).2
    let r := buildRows f ms cl
    (⟨m, prev, cl⟩ :: r.1, r.2)

/-- The full `calculateAndStoreMonthlyBalances` as the ordered list of
`(user, month)` rows it upserts; `currentMonth` renders
`new Date().toISOString().substring(0, 7)`, forward-filled with the last
closing balance when it has no transactions. -/
def calculateAndStoreMonthlyBalances (uid : Nat) (txs : List Transaction)
    (currentMonth : List Char) : List MonthRow :=
  let md := monthlyDataOf uid txs
  let r := buildRows (lookupMonth md) (sortStrAsc (md.map (fun e => e.1))) 0
  if (md.map (fun e => e.1)).contains currentMonth then r.1
  else r.1 ++ [⟨currentMonth, r.2, r.2⟩]

/-- Revenue of a user's month computed directly from the transaction list. -/
def monthRevenue (txs : List Transaction) (m : List Char) : Rat :=
  (((txs.filter (fun t => t.deleted_at.isNone)).filter
      (fun t => monthKey t == m)).map revenueContribution).sum

/-- Spent of a user's month computed directly from the transaction list. -/
def monthSpent (uid : Nat) (txs : List Transaction) (m : List Char) : Rat :=
  (((txs.filter (fun t => t.deleted_at.isNone)).filter
      (fun t => monthKey t == m)).map (spentContribution uid)).sum

/-- A friend row of the `AddTransaction` form state: the id and the
user-entered split percentage. -/
structure SelectedFriend where
  id : Nat
  splitPercentage : Rat
deriving DecidableEq, Repr

/-- Outcome of `AddTransaction.handleSubmit`: an `alert` plus early return,
or a submitted payload (here: its split participants). -/
inductive SubmitResult where
  | rejected (message : String)
  | submitted (participants : List SplitParticipant)
deriving DecidableEq, Repr

/-- Percentages branch of `AddTransaction.handleSubmit` for a shared
transaction: the creator's percentage is derived as `100 - Σ friend
percentages`, the guard compares `myPercentage + Σ friend percentages`
against `100 ± 0.1`, and the participant list carries
`amount * (percentage / 100)` shares (JS drops a falsy `share_percentage`,
rendered as `none` for `0`). -/
def handleSubmitPercentages (currentUser : Nat) (amount : Rat)
    (selectedFriends : List SelectedFriend) : SubmitResult :=
  if amount ≤ 0 then SubmitResult.rejected "Please enter a valid amount."
  else if selectedFriends.length = 0 then
    SubmitResult.rejected "Please select at least one friend to share with."
  else
    let s := (selectedFriends.map (fun f => f.splitPercentage)).sum
    let myPercentage := 100 - s
    let totalPercentage := myPercentage + s
    if (1 : Rat)/10 < ratAbs (totalPercentage - 100) then
      SubmitResult.rejected "Percentages must add up to 100%."
    else
      SubmitResult.submitted
        (⟨currentUser, amount * (myPercentage / 100),
           if myPercentage = 0 then none else some myPercentage⟩ ::
         selectedFriends.map (fun f =>
           ⟨f.id, amount * (f.splitPercentage / 100),
            if f.splitPercentage = 0 then none else some f.splitPercentage⟩))

/-- The `MAX_RETRIES` bound of `SubscriptionService`. -/
def maxRetries : Nat := 5

/-- Observable effects of one `handleRetry` invocation.  `notifyCaller`
stands for the only caller-visible channel the service has (invoking the
subscriber's `onChange` callback or otherwise signalling it). -/
inductive RetryEffect where
  | consoleLog (message : String)
  | consoleWarn (message : String)
  | scheduleResubscribe (delay : Nat)
  | notifyCaller
deriving DecidableEq, Repr

/-- One invocation of `SubscriptionService.handleRetry` at a previous retry
count: increment the count; past `MAX_RETRIES` only warn on the console and
stop; otherwise schedule a resubscription after
`Math.min(1000 * 2^(count-1), 30000)` milliseconds. -/
def handleRetry (prevCount : Nat) : Nat × List RetryEffect :=
  let count := prevCount + 1
  if maxRetries < count then
    (count, [RetryEffect.consoleWarn "[Realtime] Max retries reached. Giving up."])
  else
    (count, [RetryEffect.consoleLog "[Realtime] Retrying",
             RetryEffect.scheduleResubscribe (min (1000 * 2 ^ (count - 1)) 30000)])

/-- Whether an effect reaches the subscribing caller. -/
def callerVisible : RetryEffect → Bool
  | RetryEffect.notifyCaller => true
  | _ => false

/-- Whether an effect list carries no caller-visible signal. -/
def noCallerSignal (l : List RetryEffect) : Bool := l.all (fun e => !callerVisible e)

/-- First scheduled resubscription delay of an effect list, if any. -/
def retryDelayOf : List RetryEffect → Option Nat
  | [] => none
  | RetryEffect.scheduleResubscribe d :: _ => some d
  | _ :: rest => retryDelayOf rest

/-- The delays scheduled over the successive failures of one channel. -/
def retryDelays : List Nat :=
  (List.range maxRetries).filterMap (fun n => retryDelayOf (handleRetry n).2)

/-- Modelled from the spec: the ordering the spec claims for the greedy
matching — descending by amount, ties broken by ascending user id — written
from the spec's words for comparison with the source's `selectCreditors`
and `debtorsOf`. -/
def insertSpecOrder (x : Nat × Rat) : List (Nat × Rat) → List (Nat × Rat)
  | [] => [x]
  | y :: ys =>
    if y.2 < x.2 ∨ (x.2 = y.2 ∧ x.1 ≤ y.1) then x :: y :: ys
    else y :: insertSpecOrder x ys

/-- Modelled from the spec: sort by amount descending, ties by user id
ascending. -/
def sortSpecOrder : List (Nat × Rat) → List (Nat × Rat)
  | [] => []
  | x :: xs => insertSpecOrder x (sortSpecOrder xs)

/-- Modelled from the spec: the netting with both the creditor and the
debtor lists processed in the claimed order (amount descending, ties by
ascending user id). -/
def claimedSharedDebts (txId : Nat) (ps : List Payer) (parts : List SplitParticipant) :
    List Debt :=
  let tbl := netTable ps parts
  processDebtors (fun t => sortSpecOrder (t.filter (fun e => decide ((1 : Rat)/100 < e.2))))
    txId (sortSpecOrder (debtorsOf tbl)) tbl

/-- Integer multiple of one cent: the two-decimal monetary amounts of the
interface contract (§6 of the spec). -/
def CentMul (x : Rat) : Prop := ∃ k : Int, x = k / 100

/-- Total inserted edge amount. -/
def debtTotal (l : List Debt) : Rat := (l.map (fun d => d.amount)).sum

/-- Sum of `|net[u]|` over the entries with a negative net balance. -/
def negNetTotal (tbl : List (Nat × Rat)) : Rat :=
  ((tbl.filter (fun e => decide (e.2 < 0))).map (fun e => ratAbs e.2)).sum

/-! Helper lemmas about the netting loops. -/

/-- Edges produced by the inner creditor loop carry the transaction id, the
debtor id, and a creditor taken from the creditor cursor snapshot. -/
theorem matchDebtor_mem (txId did : Nat) :
    ∀ (cs : List (Nat × Rat)) (drem : Rat) (tbl : List (Nat × Rat)),
      ∀ e ∈ (matchDebtor txId did drem cs tbl).1,
        e.transaction_id = txId ∧ e.debtor_id = did ∧
          e.creditor_id ∈ cs.map Prod.fst := by
  intro cs
  induction cs with
  | nil => intro drem tbl e he; simp [matchDebtor] at he
  | cons c rest ih =>
    intro drem tbl e he
    simp only [matchDebtor] at he
    split at he
    · split at he
      · simp only [List.mem_singleton] at he
        subst he
        exact ⟨rfl, rfl, by simp⟩
      · simp only [List.mem_cons] at he
        rcases he with rfl | he
        · exact ⟨rfl, rfl, by simp⟩
        · obtain ⟨h1, h2, h3⟩ := ih _ _ e he
          exact ⟨h1, h2, by simp [h3]⟩
    · split at he
      · simp at he
      · obtain ⟨h1, h2, h3⟩ := ih _ _ e he
        exact ⟨h1, h2, by simp [h3]⟩

/-- Edges produced by the outer debtor loop carry the transaction id and a
debtor taken from the debtor cursor. -/
theorem processDebtors_mem (sel : List (Nat × Rat) → List (Nat × Rat)) (txId : Nat) :
    ∀ (ds tbl : List (Nat × Rat)), ∀ e ∈ processDebtors sel txId ds tbl,
      e.transaction_id = txId ∧ e.debtor_id ∈ ds.map Prod.fst := by
  intro ds
  induction ds with
  | nil => intro tbl e he; simp [processDebtors] at he
  | cons d rest ih =>
    intro tbl e he
    simp only [processDebtors, List.mem_append] at he
    rcases he with he | he
    · obtain ⟨h1, h2, -⟩ := matchDebtor_mem txId d.1 (sel tbl) d.2 tbl e he
      exact ⟨h1, by simp [h2]⟩
    · obtain ⟨h1, h2⟩ := ih _ e he
      exact ⟨h1, by simp [h2]⟩

/-- Every edge the trigger inserts for a transaction carries that
transaction's id. -/
theorem recomputeEdges_txid (env : Env) (tx : Transaction) :
    ∀ e ∈ recomputeEdges env tx, e.transaction_id = tx.id := by
  intro e he
  unfold recomputeEdges at he
  split at he
  · simp at he
  · split at he
    · split at he
      · split at he <;> simp_all
      · simp at he
    · split at he
      · rename_i sd ps heq
        simp only [sharedDebts] at he
        exact (processDebtors_mem _ _ _ _ e he).1
      · simp at he

/-- C5: the netting recompute is idempotent — applying the trigger's
delete-then-insert a second time on the unchanged transaction leaves the
debts store (the exact ordered list of edge rows, hence also the multiset of
`(transaction_id, debtor_id, creditor_id, amount)` rows) identical. -/
theorem C5_recompute_idempotent (env : Env) (store : List Debt) (tx : Transaction) :
    applyTrigger env (applyTrigger env store tx) tx = applyTrigger env store tx := by
  unfold applyTrigger
  rw [List.filter_append]
  have h1 : (store.filter (fun d => d.transaction_id != tx.id)).filter
      (fun d => d.transaction_id != tx.id)
      = store.filter (fun d => d.transaction_id != tx.id) := by
    simp [List.filter_filter]
  have h2 : (recomputeEdges env tx).filter (fun d => d.transaction_id != tx.id) = [] := by
    refine List.filter_eq_nil_iff.mpr ?_
    intro d hd
    simp [recomputeEdges_txid env tx d hd]
  rw [h1, h2, List.append_nil]

/-- C2: soft deleting a transaction makes its recompute insert nothing and
leaves no edge with its id in the store; more generally any soft-deleted
transaction, and any transaction that is neither a settlement nor a shared
transaction with both `split_details` and `payers`, recomputes to the empty
edge set. -/
theorem C2_tombstone_empty_recompute (env : Env) (store : List Debt) (tx : Transaction)
    (entry : ActivityLogEntry) (now : String) :
    (recomputeEdges env (deleteTransaction tx entry now) = [] ∧
      ∀ d ∈ applyTrigger env store (deleteTransaction tx entry now),
        d.transaction_id ≠ tx.id) ∧
    ∀ tx2 : Transaction,
      (tx2.deleted_at.isSome = true ∨
        (charsStartWith tx2.description.data "SETTLEMENT:".data = false ∧
          (tx2.type ≠ TxType.shared ∨ tx2.split_details = none ∨ tx2.payers = none))) →
      recomputeEdges env tx2 = [] := by
  have hgen : ∀ tx2 : Transaction,
      (tx2.deleted_at.isSome = true ∨
        (charsStartWith tx2.description.data "SETTLEMENT:".data = false ∧
          (tx2.type ≠ TxType.shared ∨ tx2.split_details = none ∨ tx2.payers = none))) →
      recomputeEdges env tx2 = [] := by
    intro tx2 h
    unfold recomputeEdges
    rcases h with h | ⟨hdesc, hrest⟩
    · simp [h]
    · by_cases hdel : tx2.deleted_at.isSome
      · simp [hdel]
      · simp only [hdel, if_false, hdesc, Bool.false_eq_true]
        rcases hrest with ht | hsd | hp <;>
          rcases htype : tx2.type <;>
          rcases hsplit : tx2.split_details <;>
          rcases hpay : tx2.payers <;>
          simp_all
  refine ⟨⟨hgen _ (by simp [deleteTransaction]), ?_⟩, hgen⟩
  intro d hd
  unfold applyTrigger at hd
  rw [hgen _ (by simp [deleteTransaction]), List.append_nil] at hd
  have := List.of_mem_filter hd
  simpa [deleteTransaction] using this

/-- Fixture: a shared transaction used for the C2 witness. -/
def c2tx : Transaction :=
  { id := 1, user_id := 2, type := TxType.shared, amount := 5,
    payers := some [⟨2, 5⟩],
    split_details := some ⟨"equally", [⟨2, 3, none⟩, ⟨3, 2, none⟩]⟩ }

/-- Witness for C2 at a concrete soft-deleted transaction and store. -/
theorem C2_witness :
    recomputeEdges ⟨[]⟩ (deleteTransaction c2tx ⟨"deleted", 2, "u", "t"⟩ "t") = [] ∧
    (2 : Nat) ≠ 1 := by
  have h := C2_tombstone_empty_recompute ⟨[]⟩ [⟨2, 7, 8, 9⟩] c2tx ⟨"deleted", 2, "u", "t"⟩ "t"
  exact ⟨h.1.1, h.1.2 ⟨2, 7, 8, 9⟩ (by decide)⟩

/-- C3: a non-deleted settlement transaction with a resolvable counterparty
recomputes to exactly one edge of the full amount: `personal` (the creator
paid the counterparty) makes the counterparty the debtor and the creator the
creditor; `revenue` (the counterparty paid the creator) the reverse. -/
theorem C3_settlement_single_edge (env : Env) (tx : Transaction) (fid : Nat)
    (hdel : tx.deleted_at = none)
    (hdesc : charsStartWith tx.description.data "SETTLEMENT:".data = true)
    (hres : resolveCounterparty env tx = some fid) :
    (tx.type = TxType.personal →
      recomputeEdges env tx = [⟨tx.id, fid, tx.user_id, tx.amount⟩]) ∧
    (tx.type = TxType.revenue →
      recomputeEdges env tx = [⟨tx.id, tx.user_id, fid, tx.amount⟩]) := by
  unfold recomputeEdges
  rw [hdel, hres]
  simp only [Option.isSome_none, Bool.false_eq_true, if_false, hdesc, if_true]
  constructor <;> intro ht <;> simp [ht]

/-- Fixture: a new-format settlement transaction used for the C3 witness. -/
def c3tx : Transaction :=
  { id := 9, user_id := 1, type := TxType.personal, amount := 50,
    description := "SETTLEMENT: Paid bob@x.com",
    split_details := some ⟨"settlement", [⟨7, 50, none⟩]⟩ }

/-- Witness for C3 at a concrete settlement transaction. -/
theorem C3_witness : recomputeEdges ⟨[]⟩ c3tx = [⟨9, 7, 1, 50⟩] := by
  have h := C3_settlement_single_edge ⟨[]⟩ c3tx 7 rfl (by decide) (by decide)
  exact h.1 rfl

/-- Guard analysis for the percentages branch: the rejection message of the
percentage-sum check can never be produced, because the compared total is
`(100 - s) + s`, identically `100`. -/
theorem handleSubmitPercentages_guard_unreachable (u : Nat) (a : Rat)
    (fs : List SelectedFriend) (msg : String)
    (h : handleSubmitPercentages u a fs = SubmitResult.rejected msg) :
    msg ≠ "Percentages must add up to 100%." := by
  unfold handleSubmitPercentages at h
  have hz : ∀ s : Rat, 100 - s + s - 100 = 0 := fun s => by ring
  have hlt : ¬ ((1 : Rat)/10 < ratAbs 0) := by norm_num [ratAbs]
  simp only [hz, hlt, if_false, ite_false] at h
  split at h
  · simp only [SubmitResult.rejected.injEq] at h
    subst h
    decide
  · split at h
    · simp only [SubmitResult.rejected.injEq] at h
      subst h
      decide
    · simp at h

/-- C8: at a concrete submission whose entered percentages sum to `150`
(off from `100` by far more than `0.1`), the percentages branch of
`handleSubmit` does not reject — it submits the transaction, deriving a
negative share for the creator — because the guard compares
`(100 - s) + s` with `100`, which never differ. -/
theorem C8_percentages_not_rejected :
    handleSubmitPercentages 1 100 [⟨2, 150⟩] =
      SubmitResult.submitted [⟨1, -50, some (-50)⟩, ⟨2, 150, some 150⟩] ∧
    (1 : Rat)/10 < ratAbs (150 - 100) := by
  constructor
  · norm_num [handleSubmitPercentages, ratAbs]
  · norm_num [ratAbs]

/-- C9 counterexample: at the sixth consecutive failure the retry handler
gives up with only a console warning — it emits no caller-visible
degraded-state signal, contrary to the claim that one is surfaced to the
caller. -/
theorem C9_counterexample_no_signal :
    handleRetry 5 =
      (6, [RetryEffect.consoleWarn "[Realtime] Max retries reached. Giving up."]) ∧
    noCallerSignal (handleRetry 5).2 = true := by
  constructor
  · rfl
  · rfl

/-- C9 amended: on failure `n < 5` the handler schedules a resubscription
after `min(1000 * 2^n, 30000)` ms (the delays over successive failures are
1000, 2000, 4000, 8000, 16000 — doubling from the base, capped, bounded at
five attempts); from the sixth failure on it stops permanently, emitting
only a console warning and no caller-visible signal. -/
theorem C9_amended_backoff (n : Nat) :
    (n < maxRetries →
      handleRetry n = (n + 1,
        [RetryEffect.consoleLog "[Realtime] Retrying",
         RetryEffect.scheduleResubscribe (min (1000 * 2 ^ n) 30000)])) ∧
    (maxRetries ≤ n →
      (handleRetry n).2 =
        [RetryEffect.consoleWarn "[Realtime] Max retries reached. Giving up."] ∧
      noCallerSignal (handleRetry n).2 = true) ∧
    retryDelays = [1000, 2000, 4000, 8000, 16000] := by
  refine ⟨?_, ?_, by decide⟩
  · intro h
    unfold handleRetry
    have h2 : ¬ (maxRetries < n + 1) := by omega
    simp [h2]
  · intro h
    unfold handleRetry
    have h2 : maxRetries < n + 1 := by omega
    simp [h2, noCallerSignal, callerVisible]

/-- Witness for C9 at the fourth failure (a retry of 8000 ms) and at the
eighth (a silent give-up). -/
theorem C9_amended_backoff_witness :
    handleRetry 3 = (4, [RetryEffect.consoleLog "[Realtime] Retrying",
      RetryEffect.scheduleResubscribe 8000]) ∧
    noCallerSignal (handleRetry 7).2 = true := by
  constructor
  · have h := (C9_amended_backoff 3).1 (by decide)
    simpa using h
  · exact ((C9_amended_backoff 7).2.1 (by decide)).2

/-- Membership through the descending insertion. -/
theorem mem_insertByBalDesc {x y : Nat × Rat} :
    ∀ {l : List (Nat × Rat)}, y ∈ insertByBalDesc x l ↔ y = x ∨ y ∈ l := by
  intro l
  induction l with
  | nil => simp [insertByBalDesc]
  | cons a l ih =>
    simp only [insertByBalDesc]
    split
    · simp [List.mem_cons]
    · simp only [List.mem_cons, ih]
      tauto

/-- Descending insertion preserves sortedness by balance. -/
theorem sorted_insertByBalDesc {x : Nat × Rat} :
    ∀ {l : List (Nat × Rat)},
      List.Sorted (fun a b : Nat × Rat => b.2 ≤ a.2) l →
      List.Sorted (fun a b : Nat × Rat => b.2 ≤ a.2) (insertByBalDesc x l) := by
  intro l
  induction l with
  | nil => intro; simp [insertByBalDesc]
  | cons a l ih =>
    intro h
    rw [List.sorted_cons] at h
    obtain ⟨ha, hl⟩ := h
    simp only [insertByBalDesc]
    split
    · rename_i hax
      rw [List.sorted_cons]
      refine ⟨?_, List.sorted_cons.mpr ⟨ha, hl⟩⟩
      intro b hb
      rcases List.mem_cons.mp hb with rfl | hb
      · exact hax
      · exact le_trans (ha b hb) hax
    · rename_i hax
      rw [List.sorted_cons]
      refine ⟨?_, ih hl⟩
      intro b hb
      rcases mem_insertByBalDesc.mp hb with rfl | hb
      · exact le_of_not_le hax
      · exact ha b hb
/-- The creditor insertion sort produces a descending-by-balance list. -/
theorem sorted_sortByBalDesc :
    ∀ l : List (Nat × Rat),
      List.Sorted (fun a b : Nat × Rat => b.2 ≤ a.2) (sortByBalDesc l) := by
  intro l
  induction l with
  | nil => simp [sortByBalDesc]
  | cons x xs ih => exact sorted_insertByBalDesc ih

/-- Fixtures for the C7 counterexample: payers `u3 : 5`, `u4 : 4`,
participants `u1 : 4`, `u2 : 5` (nets `u3 : +5`, `u4 : +4`, `u1 : -4`,
`u2 : -5`). -/
def c7payers : List Payer := [⟨3, 5⟩, ⟨4, 4⟩]

/-- Participant fixture for the C7 counterexample. -/
def c7parts : List SplitParticipant := [⟨1, 4, none⟩, ⟨2, 5, none⟩]

/-- C7 counterexample: the source scans debtors in table order (`u1` before
`u2` although `u2`'s amount is larger), so it emits three edges, while
processing both lists in the claimed order (amount descending, ties by
ascending id) yields two different edges — the claimed ordering does not
describe the code, and the two runs do not even agree up to reordering. -/
theorem C7_counterexample_order :
    sharedDebts 70 c7payers c7parts =
      [⟨70, 1, 3, 4⟩, ⟨70, 2, 4, 4⟩, ⟨70, 2, 3, 1⟩] ∧
    claimedSharedDebts 70 c7payers c7parts =
      [⟨70, 2, 3, 5⟩, ⟨70, 1, 4, 4⟩] ∧
    ¬ (sharedDebts 70 c7payers c7parts).Perm (claimedSharedDebts 70 c7payers c7parts) := by
  have h1 : sharedDebts 70 c7payers c7parts =
      [⟨70, 1, 3, 4⟩, ⟨70, 2, 4, 4⟩, ⟨70, 2, 3, 1⟩] := by
    norm_num [c7payers, c7parts, sharedDebts, netTable, upsertBalance, debtorsOf,
      processDebtors, matchDebtor, selectCreditors, sortByBalDesc, insertByBalDesc,
      subBalance, least, ratAbs, round2, roundHalfAway]
  have h2 : claimedSharedDebts 70 c7payers c7parts =
      [⟨70, 2, 3, 5⟩, ⟨70, 1, 4, 4⟩] := by
    norm_num [c7payers, c7parts, claimedSharedDebts, netTable, upsertBalance, debtorsOf,
      processDebtors, matchDebtor, sortSpecOrder, insertSpecOrder,
      subBalance, least, ratAbs, round2, roundHalfAway]
  refine ⟨h1, h2, ?_⟩
  rw [h1, h2]
  intro hperm
  exact absurd hperm.length_eq (by simp)

/-- C7 amended: the creditor cursor is genuinely sorted descending by
remaining balance (ties left in table order; no user-id tie-break exists in
the source), while the debtor cursor has no `ORDER BY` at all — it scans the
balance table in insertion order, a sublist of the table's key order. -/
theorem C7_amended_ordering (tbl : List (Nat × Rat)) :
    List.Sorted (fun a b : Nat × Rat => b.2 ≤ a.2) (selectCreditors tbl) ∧
    List.Sublist ((debtorsOf tbl).map Prod.fst) (tbl.map Prod.fst) := by
  constructor
  · exact sorted_sortByBalDesc _
  · have h : (debtorsOf tbl).map Prod.fst =
        (tbl.filter (fun e => decide (e.2 < -((1 : Rat)/100)))).map Prod.fst := by
      simp [debtorsOf]
    rw [h]
    exact (tbl.filter_sublist).map Prod.fst

/-- A single edge's signed contribution to the balance the user `uid` sees
against friend `fid`. -/
def edgeSigned (uid fid : Nat) (d : Debt) : Rat :=
  if d.debtor_id = uid then (if d.creditor_id = fid then -d.amount else 0)
  else if d.debtor_id = fid then d.amount else 0

/-- Reading back an accumulating upsert: unrelated keys are untouched, the
written key gains the added amount. -/
theorem lookupBal_upsertBalance (k' : Nat) :
    ∀ (m : List (Nat × Rat)) (k : Nat) (v : Rat),
      lookupBal (upsertBalance m k v) k' =
        lookupBal m k' + (if k' = k then v else 0) := by
  intro m
  induction m with
  | nil =>
    intro k v
    simp only [upsertBalance, lookupBal]
    by_cases h : k = k'
    · simp [h]
    · rw [if_neg h, if_neg (fun hh => h hh.symm)]
      simp
  | cons e es ih =>
    intro k v
    simp only [upsertBalance]
    split
    · rename_i he
      subst he
      simp only [lookupBal]
      by_cases h1 : e.1 = k'
      · rw [if_pos h1, if_pos h1, if_pos h1.symm]
      · rw [if_neg h1, if_neg h1, if_neg (fun hh => h1 hh.symm)]
        ring
    · rename_i he
      simp only [lookupBal]
      split
      · rename_i h1
        rw [if_neg (fun hh : k' = k => he (h1.trans hh))]
        ring
      · exact ih k v

/-- Folding the friend-balance step over any list adds exactly the signed
contributions towards `fid`. -/
theorem friendBalances_fold (uid fid : Nat) :
    ∀ (l : List Debt) (m : List (Nat × Rat)),
      lookupBal (l.foldl
        (fun m d =>
          if d.debtor_id = uid then upsertBalance m d.creditor_id (-d.amount)
          else upsertBalance m d.debtor_id d.amount) m) fid =
      lookupBal m fid + (l.map (edgeSigned uid fid)).sum := by
  intro l
  induction l with
  | nil => intro m; simp
  | cons d rest ih =>
    intro m
    simp only [List.foldl_cons, List.map_cons, List.sum_cons]
    by_cases h1 : d.debtor_id = uid
    · rw [if_pos h1, ih, lookupBal_upsertBalance]
      by_cases h2 : d.creditor_id = fid
      · rw [if_pos h2.symm,
          show edgeSigned uid fid d = -d.amount by simp only [edgeSigned]; rw [if_pos h1, if_pos h2]]
        ring
      · rw [if_neg (fun hh => h2 hh.symm),
          show edgeSigned uid fid d = 0 by simp only [edgeSigned]; rw [if_pos h1, if_neg h2]]
        ring
    · rw [if_neg h1, ih, lookupBal_upsertBalance]
      by_cases h3 : d.debtor_id = fid
      · rw [if_pos h3.symm,
          show edgeSigned uid fid d = d.amount by simp only [edgeSigned]; rw [if_neg h1, if_pos h3]]
        ring
      · rw [if_neg (fun hh => h3 hh.symm),
          show edgeSigned uid fid d = 0 by simp only [edgeSigned]; rw [if_neg h1, if_neg h3]]
        ring

/-- The summed signed contributions over the touching edges equal the two
directed filter sums over the full store. -/
theorem edgeSigned_sum (uid fid : Nat) (h : fid ≠ uid) :
    ∀ debts : List Debt,
      ((debtsTouching uid debts).map (edgeSigned uid fid)).sum =
        ((debts.filter (fun d => d.debtor_id == fid && d.creditor_id == uid)).map
          (fun d => d.amount)).sum -
        ((debts.filter (fun d => d.debtor_id == uid && d.creditor_id == fid)).map
          (fun d => d.amount)).sum := by
  intro debts
  induction debts with
  | nil => simp [debtsTouching]
  | cons d rest ih =>
    simp only [debtsTouching, List.filter_cons] at ih ⊢
    by_cases h1 : d.debtor_id = uid <;> by_cases h2 : d.creditor_id = uid <;>
      by_cases h3 : d.debtor_id = fid <;> by_cases h4 : d.creditor_id = fid <;>
      simp_all [edgeSigned] <;> ring

/-- C6: the friend-balance aggregator returns, for each friend `fid`, the sum
of edge amounts where `fid` is debtor and the user is creditor minus the sum
where the user is debtor and `fid` is creditor, over the edge store (which
the trigger keeps populated only for non-deleted transactions); a positive
result means the friend owes the user. -/
theorem C6_friend_balance (uid fid : Nat) (debts : List Debt) (h : fid ≠ uid) :
    lookupBal (friendBalances uid debts) fid =
      ((debts.filter (fun d => d.debtor_id == fid && d.creditor_id == uid)).map
        (fun d => d.amount)).sum -
      ((debts.filter (fun d => d.debtor_id == uid && d.creditor_id == fid)).map
        (fun d => d.amount)).sum := by
  unfold friendBalances
  rw [friendBalances_fold uid fid (debtsTouching uid debts) []]
  simp only [lookupBal, zero_add]
  exact edgeSigned_sum uid fid h debts

/-- Witness for C6: a store with one edge `u2 owes u1 : 50` and one edge
`u1 owes u3 : 20`; the balance of user 1 against friend 2 is `+50`. -/
theorem C6_witness :
    lookupBal (friendBalances 1 [⟨5, 2, 1, 50⟩, ⟨6, 1, 3, 20⟩]) 2 = 50 := by
  have h := C6_friend_balance 1 2 [⟨5, 2, 1, 50⟩, ⟨6, 1, 3, 20⟩] (by decide)
  rw [h]
  norm_num

/-- Reading back a month-bucket upsert: unrelated months are untouched, the
written month gains the added revenue and spend. -/
theorem lookupMonth_bumpMonth (k' : List Char) :
    ∀ (m : List (List Char × Rat × Rat)) (k : List Char) (rev sp : Rat),
      lookupMonth (bumpMonth m k rev sp) k' =
        (if k' = k
         then ((lookupMonth m k').1 + rev, (lookupMonth m k').2 + sp)
         else lookupMonth m k') := by
  intro m
  induction m with
  | nil =>
    intro k rev sp
    simp only [bumpMonth, lookupMonth]
    by_cases h : k = k'
    · simp [h]
    · rw [if_neg h, if_neg (fun hh => h hh.symm)]
  | cons e es ih =>
    intro k rev sp
    simp only [bumpMonth]
    split
    · rename_i he
      subst he
      simp only [lookupMonth]
      by_cases h1 : e.1 = k'
      · rw [if_pos h1, if_pos h1, if_pos h1.symm]
      · rw [if_neg h1, if_neg h1, if_neg (fun hh => h1 hh.symm)]
    · rename_i he
      simp only [lookupMonth]
      split
      · rename_i h1
        rw [if_neg (fun hh : k' = k => he (h1.trans hh))]
      · exact ih k rev sp

/-- Folding the month-bucket step over any transaction list adds exactly the
month's revenue and spend contributions. -/
theorem lookupMonth_foldl (uid : Nat) (mk : List Char) :
    ∀ (l : List Transaction) (m0 : List (List Char × Rat × Rat)),
      lookupMonth (l.foldl (fun m t =>
        bumpMonth m (monthKey t) (revenueContribution t) (spentContribution uid t)) m0) mk =
      ((lookupMonth m0 mk).1 +
          ((l.filter (fun t => monthKey t == mk)).map revenueContribution).sum,
        (lookupMonth m0 mk).2 +
          ((l.filter (fun t => monthKey t == mk)).map (spentContribution uid)).sum) := by
  intro l
  induction l with
  | nil => intro m0; simp
  | cons t l ih =>
    intro m0
    simp only [List.foldl_cons, List.filter_cons]
    rw [ih, lookupMonth_bumpMonth]
    by_cases h : monthKey t = mk
    · rw [if_pos h.symm]
      simp only [h, beq_self_eq_true, if_true, List.map_cons, List.sum_cons]
      simp only [Prod.mk.injEq]
      constructor <;> ring
    · rw [if_neg (fun hh => h hh.symm)]
      have hbeq : (monthKey t == mk) = false := by
        simpa using h
      simp [hbeq]

/-- Months that never occur in the bucket map read back as `(0, 0)`. -/
theorem lookupMonth_not_contains :
    ∀ (md : List (List Char × Rat × Rat)) (k : List Char),
      (md.map (fun e => e.1)).contains k = false → lookupMonth md k = (0, 0) := by
  intro md
  induction md with
  | nil => intro k _; rfl
  | cons e es ih =>
    intro k h
    simp only [List.map_cons, List.contains_cons, Bool.or_eq_false_iff, beq_eq_false_iff_ne,
      ne_eq] at h
    simp only [lookupMonth]
    rw [if_neg (fun hh => h.1 hh.symm)]
    refine ih k ?_
    simpa using h.2

/-- Every row the carry-forward loop produces closes at
`opening + revenue - spent` of its own month. -/
theorem buildRows_closing (f : List Char → Rat × Rat) :
    ∀ (ms : List (List Char)) (prev : Rat),
      ∀ r ∈ (buildRows f ms prev).1,
        r.closing = r.opening + (f r.month).1 - (f r.month).2 := by
  intro ms
  induction ms with
  | nil => intro prev r hr; simp [buildRows] at hr
  | cons m ms ih =>
    intro prev r hr
    simp only [buildRows, List.mem_cons] at hr
    rcases hr with rfl | hr
    · rfl
    · exact ih _ r hr

/-- The head of the carry-forward rows (continued by any tail that opens at
the loop's final closing balance) opens at the starting balance. -/
theorem buildRows_head_opening (f : List Char → Rat × Rat) :
    ∀ (ms : List (List Char)) (prev : Rat) (tail : List MonthRow),
      (∀ r, tail.head? = some r → r.opening = (buildRows f ms prev).2) →
      ∀ r, ((buildRows f ms prev).1 ++ tail).head? = some r → r.opening = prev := by
  intro ms prev tail hh r hr
  cases ms with
  | nil =>
    simp only [buildRows, List.nil_append] at hr
    exact hh r hr
  | cons m ms =>
    simp only [buildRows, List.cons_append, List.head?_cons, Option.some.injEq] at hr
    rw [← hr]

/-- Chain invariant of the carry-forward loop: appending any tail whose head
opens at the loop's final closing balance keeps consecutive rows chained
(`opening of the next = closing of the previous`). -/
theorem buildRows_chain (f : List Char → Rat × Rat) :
    ∀ (ms : List (List Char)) (prev : Rat) (tail : List MonthRow),
      List.Chain' (fun a b : MonthRow => b.opening = a.closing) tail →
      (∀ r, tail.head? = some r → r.opening = (buildRows f ms prev).2) →
      List.Chain' (fun a b : MonthRow => b.opening = a.closing)
        ((buildRows f ms prev).1 ++ tail) := by
  intro ms
  induction ms with
  | nil =>
    intro prev tail ht hh
    simpa [buildRows] using ht
  | cons m ms ih =>
    intro prev tail ht hh
    simp only [buildRows, List.cons_append]
    rw [List.chain'_cons']
    constructor
    · intro b hb
      exact buildRows_head_opening f ms _ tail hh b hb
    · exact ih _ tail ht hh

/-- Branch equation: when the current month already has transactions, the
carry-forward upserts exactly the computed rows. -/
theorem calculateMB_contains (uid : Nat) (txs : List Transaction) (currentMonth : List Char)
    (hc : ((monthlyDataOf uid txs).map (fun e => e.1)).contains currentMonth = true) :
    calculateAndStoreMonthlyBalances uid txs currentMonth =
      (buildRows (lookupMonth (monthlyDataOf uid txs))
        (sortStrAsc ((monthlyDataOf uid txs).map (fun e => e.1))) 0).1 := by
  unfold calculateAndStoreMonthlyBalances
  simp only [hc, if_true]

/-- Branch equation: when the current month has no transactions, the
carry-forward appends a forward-fill row at the final closing balance. -/
theorem calculateMB_fill (uid : Nat) (txs : List Transaction) (currentMonth : List Char)
    (hc : ((monthlyDataOf uid txs).map (fun e => e.1)).contains currentMonth = false) :
    calculateAndStoreMonthlyBalances uid txs currentMonth =
      (buildRows (lookupMonth (monthlyDataOf uid txs))
        (sortStrAsc ((monthlyDataOf uid txs).map (fun e => e.1))) 0).1 ++
      [⟨currentMonth,
        (buildRows (lookupMonth (monthlyDataOf uid txs))
          (sortStrAsc ((monthlyDataOf uid txs).map (fun e => e.1))) 0).2,
        (buildRows (lookupMonth (monthlyDataOf uid txs))
          (sortStrAsc ((monthlyDataOf uid txs).map (fun e => e.1))) 0).2⟩] := by
  unfold calculateAndStoreMonthlyBalances
  simp only [hc, Bool.false_eq_true, if_false]

/-- C4: after the carry-forward runs over a fixed transaction set, the
persisted rows (in upsert order, including the forward-filled current month)
chain — each row opens at the previous row's closing balance — the first
persisted row opens at `0`, and every row closes at
`opening + revenue - spent` of its month computed from the non-deleted
transactions. -/
theorem C4_monthly_telescoping (uid : Nat) (txs : List Transaction)
    (currentMonth : List Char) :
    List.Chain' (fun a b : MonthRow => b.opening = a.closing)
      (calculateAndStoreMonthlyBalances uid txs currentMonth) ∧
    (∀ r, (calculateAndStoreMonthlyBalances uid txs currentMonth).head? = some r →
      r.opening = 0) ∧
    (∀ r ∈ calculateAndStoreMonthlyBalances uid txs currentMonth,
      r.closing = r.opening + monthRevenue txs r.month - monthSpent uid txs r.month) := by
  have hlk : ∀ mk, lookupMonth (monthlyDataOf uid txs) mk =
      (monthRevenue txs mk, monthSpent uid txs mk) := by
    intro mk
    unfold monthlyDataOf monthRevenue monthSpent
    rw [lookupMonth_foldl]
    simp [lookupMonth]
  cases hc : ((monthlyDataOf uid txs).map (fun e => e.1)).contains currentMonth with
  | true =>
    rw [calculateMB_contains uid txs currentMonth hc]
    refine ⟨?_, ?_, ?_⟩
    · have h := buildRows_chain (lookupMonth (monthlyDataOf uid txs))
        (sortStrAsc ((monthlyDataOf uid txs).map (fun e => e.1))) 0 []
        (by simp) (by simp)
      simpa using h
    · have h := buildRows_head_opening (lookupMonth (monthlyDataOf uid txs))
        (sortStrAsc ((monthlyDataOf uid txs).map (fun e => e.1))) 0 []
        (by simp)
      intro r hr
      exact h r (by simpa using hr)
    · intro r hr
      have h := buildRows_closing (lookupMonth (monthlyDataOf uid txs))
        (sortStrAsc ((monthlyDataOf uid txs).map (fun e => e.1))) 0 r hr
      rw [hlk] at h
      exact h
  | false =>
    rw [calculateMB_fill uid txs currentMonth hc]
    refine ⟨?_, ?_, ?_⟩
    · refine buildRows_chain (lookupMonth (monthlyDataOf uid txs))
        (sortStrAsc ((monthlyDataOf uid txs).map (fun e => e.1))) 0 _
        (List.chain'_singleton _) ?_
      intro r hr
      simp only [List.head?_cons, Option.some.injEq] at hr
      rw [← hr]
    · have h := buildRows_head_opening (lookupMonth (monthlyDataOf uid txs))
        (sortStrAsc ((monthlyDataOf uid txs).map (fun e => e.1))) 0
        [⟨currentMonth,
          (buildRows (lookupMonth (monthlyDataOf uid txs))
            (sortStrAsc ((monthlyDataOf uid txs).map (fun e => e.1))) 0).2,
          (buildRows (lookupMonth (monthlyDataOf uid txs))
            (sortStrAsc ((monthlyDataOf uid txs).map (fun e => e.1))) 0).2⟩]
        ?_
      · intro r hr
        exact h r hr
      · intro r hr
        simp only [List.head?_cons, Option.some.injEq] at hr
        rw [← hr]
    · intro r hr
      rcases List.mem_append.mp hr with hr | hr
      · have h := buildRows_closing (lookupMonth (monthlyDataOf uid txs))
          (sortStrAsc ((monthlyDataOf uid txs).map (fun e => e.1))) 0 r hr
        rw [hlk] at h
        exact h
      · simp only [List.mem_singleton] at hr
        subst hr
        have h0 : lookupMonth (monthlyDataOf uid txs) currentMonth = (0, 0) := by
          exact lookupMonth_not_contains _ _ hc
        have h12 := (hlk currentMonth).symm.trans h0
        rw [Prod.mk.injEq] at h12
        simp [h12.1, h12.2]

/-- Fixture: two transactions of user 1, in months 2024-01 (revenue 100) and
2024-03 (personal 30), with 2024-05 as the current month. -/
def c4txs : List Transaction :=
  [{ id := 1, user_id := 1, type := TxType.revenue, amount := 100,
     date := "2024-01-15T00:00:00Z" },
   { id := 2, user_id := 1, type := TxType.personal, amount := 30,
     date := "2024-03-02T00:00:00Z" }]

/-- Witness for C4 at a concrete two-month history with a forward-filled
current month: the rows chain and the 2024-03 row closes at
`opening + revenue - spent`. -/
theorem C4_witness :
    List.Chain' (fun a b : MonthRow => b.opening = a.closing)
      (calculateAndStoreMonthlyBalances 1 c4txs "2024-05".data) ∧
    (⟨"2024-03".data, 100, 70⟩ : MonthRow).closing =
      (⟨"2024-03".data, (100 : Rat), 70⟩ : MonthRow).opening +
        monthRevenue c4txs "2024-03".data - monthSpent 1 c4txs "2024-03".data := by
  have h := C4_monthly_telescoping 1 c4txs "2024-05".data
  refine ⟨h.1, h.2.2 ⟨"2024-03".data, 100, 70⟩ ?_⟩
  have heval : calculateAndStoreMonthlyBalances 1 c4txs "2024-05".data =
      [⟨"2024-01".data, 0, 100⟩, ⟨"2024-03".data, 100, 70⟩, ⟨"2024-05".data, 70, 70⟩] := by
    simp +decide [c4txs, calculateAndStoreMonthlyBalances, monthlyDataOf, bumpMonth, monthKey,
      revenueContribution, spentContribution, sortStrAsc, insertStrAsc, lexLtChars,
      lookupMonth, buildRows]
    norm_num
  rw [heval]
  simp

/-- A key appears in an upserted table iff it is the written key or was
already present. -/
theorem keys_upsertBalance :
    ∀ (m : List (Nat × Rat)) (k : Nat) (v : Rat) (k' : Nat),
      (k' ∈ (upsertBalance m k v).map Prod.fst) ↔ (k' = k ∨ k' ∈ m.map Prod.fst) := by
  intro m
  induction m with
  | nil => intro k v k'; simp [upsertBalance]
  | cons e es ih =>
    intro k v k'
    simp only [upsertBalance]
    split
    · rename_i he
      subst he
      simp only [List.map_cons, List.mem_cons]
      tauto
    · simp only [List.map_cons, List.mem_cons, ih]
      tauto

/-- Upserting preserves distinctness of the table keys. -/
theorem nodup_upsertBalance :
    ∀ (m : List (Nat × Rat)) (k : Nat) (v : Rat),
      (m.map Prod.fst).Nodup → ((upsertBalance m k v).map Prod.fst).Nodup := by
  intro m
  induction m with
  | nil => intro k v _; simp [upsertBalance]
  | cons e es ih =>
    intro k v h
    simp only [List.map_cons, List.nodup_cons] at h
    simp only [upsertBalance]
    split
    · simpa [List.nodup_cons] using h
    · rename_i he
      simp only [List.map_cons, List.nodup_cons]
      refine ⟨?_, ih k v h.2⟩
      intro hmem
      rcases (keys_upsertBalance es k v e.1).mp hmem with rfl | hmem
      · exact he rfl
      · exact h.1 hmem

/-- Folding accumulating upserts preserves distinctness of the table keys. -/
theorem nodup_foldl_upsertBalance {α : Type} (f : α → Nat) (g : α → Rat) :
    ∀ (l : List α) (m : List (Nat × Rat)),
      (m.map Prod.fst).Nodup →
      ((l.foldl (fun tbl x => upsertBalance tbl (f x) (g x)) m).map Prod.fst).Nodup := by
  intro l
  induction l with
  | nil => intro m h; simpa
  | cons x l ih =>
    intro m h
    simpa using ih _ (nodup_upsertBalance m (f x) (g x) h)

/-- The net-balance table of a transaction has distinct user keys. -/
theorem nodup_netTable (ps : List Payer) (parts : List SplitParticipant) :
    ((netTable ps parts).map Prod.fst).Nodup := by
  unfold netTable
  exact nodup_foldl_upsertBalance _ _ parts _
    (nodup_foldl_upsertBalance _ _ ps [] (by simp))

/-- With distinct keys, a key determines its value in the table. -/
theorem mem_value_eq :
    ∀ {tbl : List (Nat × Rat)}, (tbl.map Prod.fst).Nodup →
      ∀ {k : Nat} {v v' : Rat}, (k, v) ∈ tbl → (k, v') ∈ tbl → v = v' := by
  intro tbl
  induction tbl with
  | nil => intro _ k v v' h1; simp at h1
  | cons e es ih =>
    intro h k v v' h1 h2
    simp only [List.map_cons, List.nodup_cons] at h
    simp only [List.mem_cons] at h1 h2
    rcases h1 with h1 | h1 <;> rcases h2 with h2 | h2
    · rw [← h1] at h2
      exact (Prod.mk.injEq _ _ _ _).mp h2.symm |>.2
    · exfalso
      apply h.1
      have hek : e.1 = k := by rw [← h1]
      rw [hek]
      simpa using List.mem_map_of_mem Prod.fst h2
    · exfalso
      apply h.1
      have hek : e.1 = k := by rw [← h2]
      rw [hek]
      simpa using List.mem_map_of_mem Prod.fst h1
    · exact ih h.2 h1 h2

/-- The creditor decrement keeps the key sequence of the table unchanged. -/
theorem keys_subBalance :
    ∀ (tbl : List (Nat × Rat)) (k : Nat) (a : Rat),
      (subBalance tbl k a).map Prod.fst = tbl.map Prod.fst := by
  intro tbl
  induction tbl with
  | nil => intro k a; rfl
  | cons e es ih =>
    intro k a
    simp only [subBalance]
    split <;> simp [ih]

/-- The creditor decrement leaves rows with other keys untouched. -/
theorem mem_subBalance_ne :
    ∀ (tbl : List (Nat × Rat)) (k : Nat) (a : Rat) (k' : Nat) (v : Rat), k' ≠ k →
      ((k', v) ∈ subBalance tbl k a ↔ (k', v) ∈ tbl) := by
  intro tbl
  induction tbl with
  | nil => intro k a k' v _; simp [subBalance]
  | cons e es ih =>
    intro k a k' v hne
    simp only [subBalance]
    split
    · rename_i he
      subst he
      simp only [List.mem_cons, ih _ _ _ _ hne]
      constructor
      · rintro (h | h)
        · exact absurd ((Prod.mk.injEq _ _ _ _).mp h).1 hne
        · exact Or.inr h
      · rintro (h | h)
        · exact absurd ((Prod.mk.injEq _ _ _ _).mp h).1 hne
        · exact Or.inr h
    · simp only [List.mem_cons, ih _ _ _ _ hne]

/-- The descending insertion is a permutation of consing. -/
theorem perm_insertByBalDesc (x : Nat × Rat) :
    ∀ l : List (Nat × Rat), (insertByBalDesc x l).Perm (x :: l) := by
  intro l
  induction l with
  | nil => simp [insertByBalDesc]
  | cons y ys ih =>
    simp only [insertByBalDesc]
    split
    · exact List.Perm.refl _
    · exact (List.Perm.cons y ih).trans (List.Perm.swap x y ys)

/-- The creditor sort is a permutation of its input. -/
theorem perm_sortByBalDesc :
    ∀ l : List (Nat × Rat), (sortByBalDesc l).Perm l := by
  intro l
  induction l with
  | nil => simp [sortByBalDesc]
  | cons x xs ih =>
    exact (perm_insertByBalDesc x (sortByBalDesc xs)).trans (List.Perm.cons x ih)

/-- Rows selected by the creditor cursor are table rows above the `0.01`
threshold. -/
theorem mem_selectCreditors {tbl : List (Nat × Rat)} {c : Nat × Rat}
    (h : c ∈ selectCreditors tbl) : c ∈ tbl ∧ (1 : Rat)/100 < c.2 := by
  unfold selectCreditors at h
  have h2 := (perm_sortByBalDesc _).mem_iff.mp h
  have h3 := List.mem_filter.mp h2
  exact ⟨h3.1, by simpa using h3.2⟩

/-- The creditor cursor inherits distinct keys from the table. -/
theorem nodup_keys_selectCreditors {tbl : List (Nat × Rat)}
    (h : (tbl.map Prod.fst).Nodup) :
    ((selectCreditors tbl).map Prod.fst).Nodup := by
  unfold selectCreditors
  refine ((perm_sortByBalDesc _).map Prod.fst).nodup_iff.mpr ?_
  exact ((tbl.filter_sublist).map Prod.fst).nodup h

/-- A user key currently holding a net balance below the debtor threshold. -/
def IsNegKey (tbl : List (Nat × Rat)) (k : Nat) : Prop :=
  ∃ v, (k, v) ∈ tbl ∧ v < -((1 : Rat)/100)

/-- Core invariant of the inner creditor loop: the table keys are unchanged,
rows below the debtor threshold are never touched (updates only hit rows
above the creditor threshold), and — since one user's single row cannot be
below `-0.01` and above `0.01` at once — the debtor never appears as a
creditor of its own edges. -/
theorem matchDebtor_no_self (txId : Nat) :
    ∀ (cs : List (Nat × Rat)) (did : Nat) (drem : Rat) (tbl : List (Nat × Rat)),
      (tbl.map Prod.fst).Nodup →
      (cs.map Prod.fst).Nodup →
      (∀ c ∈ cs, ∃ v, (1 : Rat)/100 < v ∧ (c.1, v) ∈ tbl) →
      ((matchDebtor txId did drem cs tbl).2.map Prod.fst = tbl.map Prod.fst) ∧
      (∀ u, IsNegKey tbl u → IsNegKey (matchDebtor txId did drem cs tbl).2 u) ∧
      (IsNegKey tbl did →
        ∀ e ∈ (matchDebtor txId did drem cs tbl).1, e.debtor_id ≠ e.creditor_id) := by
  intro cs
  induction cs with
  | nil =>
    intro did drem tbl hnd hndc hcs
    refine ⟨rfl, fun u hu => hu, ?_⟩
    intro _ e he
    simp [matchDebtor] at he
  | cons c rest ih =>
    intro did drem tbl hnd hndc hcs
    obtain ⟨vc, hvc, hvcm⟩ := hcs c (by simp)
    have hne_c : ∀ u, IsNegKey tbl u → u ≠ c.1 := by
      rintro u ⟨v, hv, hvlt⟩ rfl
      have := mem_value_eq hnd hv hvcm
      subst this
      have : -((1 : Rat)/100) < v := lt_trans (by norm_num) hvc
      exact absurd hvlt (not_lt.mpr (le_of_lt this))
    have hkeys2 : ∀ a : Rat, (subBalance tbl c.1 a).map Prod.fst = tbl.map Prod.fst :=
      fun a => keys_subBalance tbl c.1 a
    have hneg2 : ∀ (a : Rat) (u : Nat), IsNegKey tbl u → IsNegKey (subBalance tbl c.1 a) u := by
      rintro a u hu
      obtain ⟨v, hv, hvlt⟩ := hu
      exact ⟨v, (mem_subBalance_ne tbl c.1 a u v (hne_c u ⟨v, hv, hvlt⟩)).mpr hv, hvlt⟩
    have hrest2 : ∀ a : Rat, ∀ c' ∈ rest, ∃ v, (1 : Rat)/100 < v ∧
        (c'.1, v) ∈ subBalance tbl c.1 a := by
      intro a c' hc'
      obtain ⟨v, hv1, hv2⟩ := hcs c' (by simp [hc'])
      have hne : c'.1 ≠ c.1 := by
        intro heq
        simp only [List.map_cons, List.nodup_cons] at hndc
        exact hndc.1 (heq ▸ List.mem_map_of_mem Prod.fst hc')
      exact ⟨v, hv1, (mem_subBalance_ne tbl c.1 a c'.1 v hne).mpr hv2⟩
    have hndc2 : (rest.map Prod.fst).Nodup := by
      simp only [List.map_cons, List.nodup_cons] at hndc
      exact hndc.2
    simp only [matchDebtor]
    split
    · rename_i hamt
      split
    -- debtor exhausted after this creditor
      · refine ⟨hkeys2 _, fun u hu => hneg2 _ u hu, ?_⟩
        intro hdid e he
        simp only [List.mem_singleton] at he
        subst he
        exact fun h => hne_c did hdid h
      · rename_i hcont
        have hnd2 : ((subBalance tbl c.1 (least drem c.2)).map Prod.fst).Nodup := by
          rw [hkeys2]
          exact hnd
        obtain ⟨ihk, ihn, ihe⟩ := ih did (drem - least drem c.2)
          (subBalance tbl c.1 (least drem c.2)) hnd2 hndc2 (hrest2 _)
        refine ⟨by rw [ihk, hkeys2], fun u hu => ihn u (hneg2 _ u hu), ?_⟩
        intro hdid e he
        simp only [List.mem_cons] at he
        rcases he with rfl | he
        · exact fun h => hne_c did hdid h
        · exact ihe (hneg2 _ did hdid) e he
    · split
      · exact ⟨rfl, fun u hu => hu, fun _ e he => by simp at he⟩
      · obtain ⟨ihk, ihn, ihe⟩ := ih did drem tbl hnd hndc2
          (fun c' hc' => hcs c' (by simp [hc']))
        exact ⟨ihk, ihn, ihe⟩

/-- Every debtor in the debtor cursor stays below the threshold throughout
the outer loop, so no emitted edge connects a user to themselves. -/
theorem processDebtors_no_self (txId : Nat) :
    ∀ (ds tbl : List (Nat × Rat)),
      (tbl.map Prod.fst).Nodup →
      (∀ d ∈ ds, IsNegKey tbl d.1) →
      ∀ e ∈ processDebtors selectCreditors txId ds tbl,
        e.debtor_id ≠ e.creditor_id := by
  intro ds
  induction ds with
  | nil => intro tbl _ _ e he; simp [processDebtors] at he
  | cons d rest ih =>
    intro tbl hnd hds e he
    have hsel : ∀ c ∈ selectCreditors tbl, ∃ v, (1 : Rat)/100 < v ∧ (c.1, v) ∈ tbl := by
      intro c hc
      obtain ⟨hmem, hgt⟩ := mem_selectCreditors hc
      exact ⟨c.2, hgt, hmem⟩
    obtain ⟨hk, hn, hee⟩ := matchDebtor_no_self txId (selectCreditors tbl) d.1 d.2 tbl
      hnd (nodup_keys_selectCreditors hnd) hsel
    simp only [processDebtors, List.mem_append] at he
    rcases he with he | he
    · exact hee (hds d (by simp)) e he
    · refine ih _ ?_ ?_ e he
      · rw [hk]; exact hnd
      · intro d' hd'
        exact hn d'.1 (hds d' (by simp [hd']))

/-- C10: in the general shared-expense netting, every inserted edge connects
two different users — each user has exactly one net entry, classified as a
debtor (`net < -0.01`) or a creditor (`net > 0.01`) but never both, so no
edge runs from a user to themselves. -/
theorem C10_no_self_edges (txId : Nat) (ps : List Payer) (parts : List SplitParticipant) :
    ∀ e ∈ sharedDebts txId ps parts, e.debtor_id ≠ e.creditor_id := by
  intro e he
  unfold sharedDebts at he
  refine processDebtors_no_self txId (debtorsOf (netTable ps parts))
    (netTable ps parts) (nodup_netTable ps parts) ?_ e he
  intro d hd
  unfold debtorsOf at hd
  obtain ⟨x, hx, hxd⟩ := List.mem_map.mp hd
  obtain ⟨hx1, hx2⟩ := List.mem_filter.mp hx
  refine ⟨x.2, ?_, by simpa using hx2⟩
  have : d.1 = x.1 := by rw [← hxd]
  rw [this]
  exact hx1

/-- Witness for C10 at spec scenario A (A pays 100, A and B owe 50 each):
the single emitted edge runs from B to A, two different users. -/
theorem C10_witness :
    (⟨5, 2, 1, 50⟩ : Debt) ∈ sharedDebts 5 [⟨1, 100⟩] [⟨1, 50, none⟩, ⟨2, 50, none⟩] ∧
    (2 : Nat) ≠ 1 := by
  have hmem : (⟨5, 2, 1, 50⟩ : Debt) ∈
      sharedDebts 5 [⟨1, 100⟩] [⟨1, 50, none⟩, ⟨2, 50, none⟩] := by
    norm_num [sharedDebts, netTable, upsertBalance, debtorsOf, processDebtors, matchDebtor,
      selectCreditors, sortByBalDesc, insertByBalDesc, subBalance, least, ratAbs, round2,
      roundHalfAway]
  exact ⟨hmem, C10_no_self_edges 5 [⟨1, 100⟩] [⟨1, 50, none⟩, ⟨2, 50, none⟩] ⟨5, 2, 1, 50⟩ hmem⟩

/-- Fixtures for the C1 counterexample: payers `u3 : 0.03`, `u4 : 0.03`,
shares `u1 : 0.04`, `u2 : 0.02` — cent amounts balancing the transaction
amount `0.06` exactly on both sides; the nets are `u1 : -0.04`,
`u2 : -0.02`, `u3 : +0.03`, `u4 : +0.03`. -/
def c1payers : List Payer := [⟨3, 3/100⟩, ⟨4, 3/100⟩]

/-- Participant fixture for the C1 counterexample. -/
def c1parts : List SplitParticipant := [⟨1, 4/100, none⟩, ⟨2, 2/100, none⟩]

/-- Transaction fixture for the C1 counterexample: a non-deleted shared
transaction of amount `0.06` with the fixture payers and shares. -/
def c1tx : Transaction :=
  { id := 10, user_id := 3, type := TxType.shared, amount := 6/100,
    description := "dinner", payers := some c1payers,
    split_details := some ⟨"equally", c1parts⟩ }

/-- C1 counterexample: on a non-deleted shared transaction whose payer and
share sums both equal the amount exactly, the inserted edges total `0.05`
while the debtor imbalance `Σ|net[u]|, net[u] < 0` is `0.06` — the first
debtor pairs with a `0.03` creditor, its remainder `0.01` falls to the exit
threshold and is abandoned, so the imbalance is not fully covered. -/
theorem C1_counterexample_coverage_gap :
    recomputeEdges ⟨[]⟩ c1tx = sharedDebts 10 c1payers c1parts ∧
    (c1payers.map (fun p => p.amount_paid)).sum = c1tx.amount ∧
    (c1parts.map (fun q => q.share_amount)).sum = c1tx.amount ∧
    debtTotal (sharedDebts 10 c1payers c1parts) = 1/20 ∧
    negNetTotal (netTable c1payers c1parts) = 3/50 ∧
    debtTotal (sharedDebts 10 c1payers c1parts) ≠
      negNetTotal (netTable c1payers c1parts) := by
  refine ⟨?_, ?_, ?_, ?_, ?_, ?_⟩
  · simp +decide [recomputeEdges, c1tx]
  · norm_num [c1payers, c1tx]
  · norm_num [c1parts, c1tx]
  · norm_num [c1payers, c1parts, debtTotal, sharedDebts, netTable, upsertBalance,
      debtorsOf, processDebtors, matchDebtor, selectCreditors, sortByBalDesc,
      insertByBalDesc, subBalance, least, ratAbs, round2, roundHalfAway]
  · norm_num [c1payers, c1parts, negNetTotal, netTable, upsertBalance, ratAbs]
  · have h1 : debtTotal (sharedDebts 10 c1payers c1parts) = 1/20 := by
      norm_num [c1payers, c1parts, debtTotal, sharedDebts, netTable, upsertBalance,
        debtorsOf, processDebtors, matchDebtor, selectCreditors, sortByBalDesc,
        insertByBalDesc, subBalance, least, ratAbs, round2, roundHalfAway]
    have h2 : negNetTotal (netTable c1payers c1parts) = 3/50 := by
      norm_num [c1payers, c1parts, negNetTotal, netTable, upsertBalance, ratAbs]
    rw [h1, h2]
    norm_num

/-- Cent multiples are closed under addition. -/
theorem CentMul.add {x y : Rat} (hx : CentMul x) (hy : CentMul y) : CentMul (x + y) := by
  obtain ⟨k, rfl⟩ := hx
  obtain ⟨l, rfl⟩ := hy
  exact ⟨k + l, by push_cast; ring⟩

/-- Cent multiples are closed under negation. -/
theorem CentMul.neg {x : Rat} (hx : CentMul x) : CentMul (-x) := by
  obtain ⟨k, rfl⟩ := hx
  exact ⟨-k, by push_cast; ring⟩

/-- Cent multiples are closed under subtraction. -/
theorem CentMul.sub {x y : Rat} (hx : CentMul x) (hy : CentMul y) : CentMul (x - y) := by
  obtain ⟨k, rfl⟩ := hx
  obtain ⟨l, rfl⟩ := hy
  exact ⟨k - l, by push_cast; ring⟩

/-- Zero is a cent multiple. -/
theorem CentMul.zero : CentMul 0 := ⟨0, by norm_num⟩

/-- Cent multiples are closed under `LEAST`. -/
theorem CentMul.least {x y : Rat} (hx : CentMul x) (hy : CentMul y) :
    CentMul (ExpenseTracker.least x y) := by
  unfold ExpenseTracker.least
  split <;> assumption

/-- Cent multiples are closed under `ABS`. -/
theorem CentMul.ratAbs {x : Rat} (hx : CentMul x) : CentMul (ExpenseTracker.ratAbs x) := by
  unfold ExpenseTracker.ratAbs
  split
  · exact hx.neg
  · exact hx

/-- Rounding half away from zero fixes every integer. -/
theorem roundHalfAway_intCast (k : Int) : roundHalfAway (k : Rat) = k := by
  unfold roundHalfAway
  split
  · rw [show ((k : Rat) + 1/2) = (1/2 + (k : Rat)) by ring, Int.floor_add_int]
    norm_num
  · rw [show ((k : Rat) - 1/2) = (-(1/2) + (k : Rat)) by ring, Int.ceil_add_int]
    norm_num

/-- `ROUND(v, 2)` fixes every cent multiple. -/
theorem round2_centMul {x : Rat} (hx : CentMul x) : round2 x = x := by
  obtain ⟨k, rfl⟩ := hx
  unfold round2
  rw [show ((k : Rat)/100 * 100) = (k : Rat) by field_simp, roundHalfAway_intCast]

/-- Upserting a cent amount keeps all table values cent multiples. -/
theorem centMul_upsertBalance :
    ∀ (m : List (Nat × Rat)) (k : Nat) (v : Rat),
      (∀ x ∈ m, CentMul x.2) → CentMul v →
      ∀ x ∈ upsertBalance m k v, CentMul x.2 := by
  intro m
  induction m with
  | nil =>
    intro k v _ hv x hx
    simp only [upsertBalance, List.mem_singleton] at hx
    subst hx
    exact hv
  | cons e es ih =>
    intro k v hm hv x hx
    simp only [upsertBalance] at hx
    split at hx
    · simp only [List.mem_cons] at hx
      rcases hx with rfl | hx
      · exact (hm e (by simp)).add hv
      · exact hm x (by simp [hx])
    · simp only [List.mem_cons] at hx
      rcases hx with rfl | hx
      · exact hm x (by simp)
      · exact ih k v (fun y hy => hm y (by simp [hy])) hv x hx

/-- Both accumulation folds of the net table keep values cent multiples. -/
theorem centMul_foldl_upsertBalance {α : Type} (f : α → Nat) (g : α → Rat) :
    ∀ (l : List α) (m : List (Nat × Rat)),
      (∀ a ∈ l, CentMul (g a)) → (∀ x ∈ m, CentMul x.2) →
      ∀ x ∈ l.foldl (fun tbl a => upsertBalance tbl (f a) (g a)) m, CentMul x.2 := by
  intro l
  induction l with
  | nil => intro m _ hm x hx; exact hm x hx
  | cons a l ih =>
    intro m hl hm x hx
    simp only [List.foldl_cons] at hx
    exact ih _ (fun b hb => hl b (by simp [hb]))
      (centMul_upsertBalance m (f a) (g a) hm (hl a (by simp))) x hx

/-- With cent payers and shares, every net balance is a cent multiple. -/
theorem centMul_netTable {ps : List Payer} {parts : List SplitParticipant}
    (hp : ∀ p ∈ ps, CentMul p.amount_paid)
    (hq : ∀ q ∈ parts, CentMul q.share_amount) :
    ∀ x ∈ netTable ps parts, CentMul x.2 := by
  unfold netTable
  refine centMul_foldl_upsertBalance _ _ parts _ (fun q hq2 => (hq q hq2).neg) ?_
  exact centMul_foldl_upsertBalance _ _ ps [] (fun p hp2 => hp p hp2) (by simp)

/-- Decrementing by a cent amount keeps all table values cent multiples. -/
theorem centMul_subBalance :
    ∀ (tbl : List (Nat × Rat)) (k : Nat) (a : Rat),
      (∀ x ∈ tbl, CentMul x.2) → CentMul a →
      ∀ x ∈ subBalance tbl k a, CentMul x.2 := by
  intro tbl
  induction tbl with
  | nil => intro k a _ _ x hx; simp [subBalance] at hx
  | cons e es ih =>
    intro k a hm ha x hx
    simp only [subBalance] at hx
    split at hx <;> simp only [List.mem_cons] at hx
    · rcases hx with rfl | hx
      · exact (hm e (by simp)).sub ha
      · exact ih k a (fun y hy => hm y (by simp [hy])) ha x hx
    · rcases hx with rfl | hx
      · exact hm x (by simp)
      · exact ih k a (fun y hy => hm y (by simp [hy])) ha x hx

/-- Creditor-cursor snapshot values are cent multiples of a cent table. -/
theorem centMul_selectCreditors {tbl : List (Nat × Rat)}
    (h : ∀ x ∈ tbl, CentMul x.2) :
    ∀ c ∈ selectCreditors tbl, CentMul c.2 :=
  fun c hc => h c (mem_selectCreditors hc).1

/-- The total of an edge list splits over concatenation. -/
theorem debtTotal_append (a b : List Debt) :
    debtTotal (a ++ b) = debtTotal a + debtTotal b := by
  simp [debtTotal]

/-- Bound for one debtor: with cent amounts everywhere, the edges emitted for
one debtor total at most the debtor's remainder (rounding is the identity on
cents, and each insertion subtracts exactly its amount). -/
theorem matchDebtor_sum_le (txId did : Nat) :
    ∀ (cs : List (Nat × Rat)) (drem : Rat) (tbl : List (Nat × Rat)),
      0 ≤ drem → CentMul drem →
      (∀ c ∈ cs, CentMul c.2) → (∀ x ∈ tbl, CentMul x.2) →
      debtTotal (matchDebtor txId did drem cs tbl).1 ≤ drem ∧
      (∀ x ∈ (matchDebtor txId did drem cs tbl).2, CentMul x.2) := by
  intro cs
  induction cs with
  | nil =>
    intro drem tbl h0 _ _ htbl
    exact ⟨by simpa [matchDebtor, debtTotal] using h0, htbl⟩
  | cons c rest ih =>
    intro drem tbl h0 hdc hcs htbl
    have hcc : CentMul c.2 := hcs c (by simp)
    have hamtc : CentMul (least drem c.2) := hdc.least hcc
    have hamt_le : least drem c.2 ≤ drem := by
      unfold least
      split
      · exact le_refl _
      · rename_i h
        exact le_of_not_le h
    have htbl2 : ∀ x ∈ subBalance tbl c.1 (least drem c.2), CentMul x.2 :=
      centMul_subBalance tbl c.1 _ htbl hamtc
    simp only [matchDebtor]
    split
    · rename_i hgt
      split
      · rename_i hstop
        constructor
        · simpa [debtTotal, round2_centMul hamtc] using hamt_le
        · exact htbl2
      · rename_i hcont
        have h0r : (0 : Rat) ≤ drem - least drem c.2 := by
          have : (1 : Rat)/100 < drem - least drem c.2 := lt_of_not_le hcont
          linarith
        obtain ⟨ihs, ihc⟩ := ih (drem - least drem c.2)
          (subBalance tbl c.1 (least drem c.2)) h0r (hdc.sub hamtc)
          (fun c2 hc2 => hcs c2 (by simp [hc2])) htbl2
        constructor
        · have : debtTotal (⟨txId, did, c.1, round2 (least drem c.2)⟩ ::
              (matchDebtor txId did (drem - least drem c.2) rest
                (subBalance tbl c.1 (least drem c.2))).1) =
              round2 (least drem c.2) +
              debtTotal (matchDebtor txId did (drem - least drem c.2) rest
                (subBalance tbl c.1 (least drem c.2))).1 := by
            simp [debtTotal]
          rw [this, round2_centMul hamtc]
          linarith
        · exact ihc
    · split
      · exact ⟨by simpa [debtTotal] using h0, htbl⟩
      · exact ih drem tbl h0 hdc (fun c2 hc2 => hcs c2 (by simp [hc2])) htbl

/-- Bound for the outer loop: the inserted edges total at most the summed
debtor remainders. -/
theorem processDebtors_sum_le (txId : Nat) :
    ∀ (ds tbl : List (Nat × Rat)),
      (∀ d ∈ ds, 0 ≤ d.2 ∧ CentMul d.2) →
      (∀ x ∈ tbl, CentMul x.2) →
      debtTotal (processDebtors selectCreditors txId ds tbl) ≤
        (ds.map (fun d => d.2)).sum := by
  intro ds
  induction ds with
  | nil => intro tbl _ _; simp [processDebtors, debtTotal]
  | cons d rest ih =>
    intro tbl hds htbl
    obtain ⟨hd0, hdc⟩ := hds d (by simp)
    obtain ⟨hsum, hcent⟩ := matchDebtor_sum_le txId d.1 (selectCreditors tbl) d.2 tbl
      hd0 hdc (centMul_selectCreditors htbl) htbl
    simp only [processDebtors, List.map_cons, List.sum_cons]
    rw [debtTotal_append]
    have hrest := ih _ (fun d2 hd2 => hds d2 (by simp [hd2])) hcent
    exact add_le_add hsum hrest

/-- The summed debtor-cursor remainders are bounded by the full negative-net
imbalance. -/
theorem debtorsOf_sum_le :
    ∀ tbl : List (Nat × Rat),
      ((debtorsOf tbl).map (fun d => d.2)).sum ≤ negNetTotal tbl := by
  intro tbl
  induction tbl with
  | nil => simp [debtorsOf, negNetTotal]
  | cons e es ih =>
    simp only [debtorsOf, negNetTotal, List.filter_cons] at ih ⊢
    by_cases h1 : e.2 < -((1 : Rat)/100)
    · have h2 : e.2 < 0 := lt_trans h1 (by norm_num)
      simp only [decide_eq_true_eq, h1, h2, if_true, List.map_cons, List.sum_cons]
      linarith [ih]
    · by_cases h2 : e.2 < 0
      · simp only [decide_eq_true_eq, h1, h2, if_true, if_false, List.map_cons,
          List.sum_cons]
        have habs : 0 ≤ ratAbs e.2 := by
          unfold ratAbs
          split <;> linarith
        linarith [ih]
      · simp only [decide_eq_true_eq, h1, h2, if_false]
        exact ih

/-- Rounding a value above the insertion threshold stays positive. -/
theorem round2_pos {x : Rat} (h : (1 : Rat)/100 < x) : 0 < round2 x := by
  unfold round2 roundHalfAway
  have h1 : (0 : Rat) ≤ x * 100 := by nlinarith
  rw [if_pos h1]
  have h2 : (1 : Int) ≤ ⌊x * 100 + 1/2⌋ := by
    apply Int.le_floor.mpr
    push_cast
    nlinarith
  have h3 : (0 : Rat) < (⌊x * 100 + 1/2⌋ : Rat) := by
    exact_mod_cast lt_of_lt_of_le Int.zero_lt_one h2
  exact div_pos h3 (by norm_num)

/-- Every edge the inner loop inserts has positive amount. -/
theorem matchDebtor_pos (txId did : Nat) :
    ∀ (cs : List (Nat × Rat)) (drem : Rat) (tbl : List (Nat × Rat)),
      ∀ e ∈ (matchDebtor txId did drem cs tbl).1, 0 < e.amount := by
  intro cs
  induction cs with
  | nil => intro drem tbl e he; simp [matchDebtor] at he
  | cons c rest ih =>
    intro drem tbl e he
    simp only [matchDebtor] at he
    split at he
    · rename_i hgt
      split at he
      · simp only [List.mem_singleton] at he
        subst he
        exact round2_pos hgt
      · simp only [List.mem_cons] at he
        rcases he with rfl | he
        · exact round2_pos hgt
        · exact ih _ _ e he
    · split at he
      · simp at he
      · exact ih _ _ e he

/-- Every edge the netting emits has positive amount (matching the
`CHECK (amount > 0)` constraint of the debts table). -/
theorem sharedDebts_pos (txId : Nat) (ps : List Payer) (parts : List SplitParticipant) :
    ∀ e ∈ sharedDebts txId ps parts, 0 < e.amount := by
  have hgen : ∀ (ds tbl : List (Nat × Rat)),
      ∀ e ∈ processDebtors selectCreditors txId ds tbl, 0 < e.amount := by
    intro ds
    induction ds with
    | nil => intro tbl e he; simp [processDebtors] at he
    | cons d rest ih =>
      intro tbl e he
      simp only [processDebtors, List.mem_append] at he
      rcases he with he | he
      · exact matchDebtor_pos txId d.1 (selectCreditors tbl) d.2 tbl e he
      · exact ih _ e he
  intro e he
  exact hgen _ _ e he

/-- C1 amended: for a shared transaction whose payer and share amounts are
integer multiples of one cent, the netting never over-covers — the total of
the inserted edge amounts is at most `Σ|net[u]|` over the users with
`net[u] < 0` (equality can fail: a debtor may abandon a remainder of up to
`0.01` at the exit threshold, and sub-threshold nets are excluded) — and
every inserted edge has a strictly positive amount. -/
theorem C1_amended_coverage_bound (txId : Nat) (ps : List Payer)
    (parts : List SplitParticipant)
    (hp : ∀ p ∈ ps, CentMul p.amount_paid)
    (hq : ∀ q ∈ parts, CentMul q.share_amount) :
    debtTotal (sharedDebts txId ps parts) ≤ negNetTotal (netTable ps parts) ∧
    ∀ e ∈ sharedDebts txId ps parts, 0 < e.amount := by
  constructor
  · have hcent := centMul_netTable hp hq
    have hds : ∀ d ∈ debtorsOf (netTable ps parts), 0 ≤ d.2 ∧ CentMul d.2 := by
      intro d hd
      unfold debtorsOf at hd
      obtain ⟨x, hx, hxd⟩ := List.mem_map.mp hd
      obtain ⟨hx1, hx2⟩ := List.mem_filter.mp hx
      have hx2r : x.2 < -((1 : Rat)/100) := by simpa using hx2
      have hd2 : d.2 = ratAbs x.2 := by rw [← hxd]
      constructor
      · rw [hd2]
        unfold ratAbs
        split <;> linarith
      · rw [hd2]
        exact (hcent x hx1).ratAbs
    calc debtTotal (sharedDebts txId ps parts)
        ≤ ((debtorsOf (netTable ps parts)).map (fun d => d.2)).sum := by
          unfold sharedDebts
          exact processDebtors_sum_le txId _ _ hds hcent
      _ ≤ negNetTotal (netTable ps parts) := debtorsOf_sum_le _
  · exact sharedDebts_pos txId ps parts

/-- Witness for C1 at spec scenario A (cent amounts `100`, `50`, `50`): the
emitted total is bounded by the debtor imbalance and the emitted edge is
positive. -/
theorem C1_amended_witness :
    debtTotal (sharedDebts 5 [⟨1, 100⟩] [⟨1, 50, none⟩, ⟨2, 50, none⟩]) ≤
      negNetTotal (netTable [⟨1, 100⟩] [⟨1, 50, none⟩, ⟨2, 50, none⟩]) := by
  refine (C1_amended_coverage_bound 5 [⟨1, 100⟩] [⟨1, 50, none⟩, ⟨2, 50, none⟩]
    ?_ ?_).1
  · intro p hp
    simp only [List.mem_singleton] at hp
    subst hp
    exact ⟨10000, by norm_num⟩
  · intro q hq
    simp only [List.mem_cons, List.not_mem_nil, or_false] at hq
    rcases hq with rfl | rfl
    · exact ⟨5000, by norm_num⟩
    · exact ⟨5000, by norm_num⟩

end ExpenseTracker